import Mathlib

set_option maxRecDepth 1000000

/-!
Verification of the git-rs object codec, content store, tree builder and
commit writer.  The Rust sources are embedded shallowly: byte sequences are
lists of naturals below 256, the filesystem store is a partial map from
paths to file contents, and each fallible operation returns an explicit
result type.  Definitions follow the source files (src/objects.rs,
src/commands/write_tree.rs, src/commands/commit_tree.rs,
src/commands/cat_file.rs, src/main.rs); definitions whose doc comment
starts with "Modelled from the spec" follow the specification text instead
and exist only for comparison with the source behaviour.
-/

/-- Bytes of a string literal, via the UTF-8 code points (all literals used
here are ASCII, so each char is one byte). -/
def strBytes (s : String) : List Nat := s.data.map Char.toNat

/-- Decimal digit test on a byte, as in the digits produced by the Rust
Display instance for integers. -/
def isDigitB (b : Nat) : Bool := 48 ≤ b && b ≤ 57

/-- Big-endian decimal digit bytes of n, with explicit fuel; empty for 0. -/
def decReprGo : Nat → Nat → List Nat
  | 0, _ => []
  | fuel + 1, n => if n = 0 then [] else decReprGo fuel (n / 10) ++ [48 + n % 10]

/-- Decimal representation of a natural number as ASCII bytes, as printed by
write!(... , "{}", n) in Rust. -/
def decRepr (n : Nat) : List Nat := if n = 0 then [48] else decReprGo n n

/-- Numeric value of a list of decimal digit bytes. -/
def decVal (l : List Nat) : Nat := l.foldl (fun a b => 10 * a + (b - 48)) 0

/-- Embedding of str::parse::<u64>: an optional leading plus sign, then a
nonempty run of decimal digits, rejecting values outside the u64 range. -/
def parseU64 (l : List Nat) : Option Nat :=
  let l2 := if l.head? = some 43 then l.tail else l
  if l2.isEmpty then none
  else if !l2.all isDigitB then none
  else if decVal l2 < 18446744073709551616 then some (decVal l2) else none

/-- Embedding of BufRead::read_until(0): the consumed bytes (including the
delimiter when found) together with the unread remainder. -/
def readUntil0 : List Nat → List Nat × List Nat
  | [] => ([], [])
  | b :: r =>
    if b = 0 then ([0], r)
    else ((readUntil0 r).1.cons b, (readUntil0 r).2)

/-- Embedding of str::split_once(' '): the part before the first space byte
and the part after it. -/
def splitSpace : List Nat → Option (List Nat × List Nat)
  | [] => none
  | b :: r =>
    if b = 32 then some ([], r)
    else
      match splitSpace r with
      | none => none
      | some (x, y) => some (b :: x, y)

/-- Continuation byte test for UTF-8. -/
def contB (b : Nat) : Bool := 128 ≤ b && b ≤ 191

/-- Classification of a UTF-8 leading byte: the number of continuation
bytes that must follow and the allowed range of the first of them (the
ranges rule out overlong forms, surrogates and values above 0x10FFFF,
matching the validation done by str::from_utf8). -/
def utf8Lead (b : Nat) : Option (Nat × Nat × Nat) :=
  if b ≤ 127 then some (0, 0, 0)
  else if 194 ≤ b && b ≤ 223 then some (1, 128, 191)
  else if b = 224 then some (2, 160, 191)
  else if (225 ≤ b && b ≤ 236) || b = 238 || b = 239 then some (2, 128, 191)
  else if b = 237 then some (2, 128, 159)
  else if b = 240 then some (3, 144, 191)
  else if 241 ≤ b && b ≤ 243 then some (3, 128, 191)
  else if b = 244 then some (3, 128, 143)
  else none

/-- State machine for UTF-8 validation: n pending continuation bytes, the
next of which must lie in the range lo..hi. -/
def validUtf8Go : List Nat → Nat → Nat → Nat → Bool
  | [], n, _, _ => decide (n = 0)
  | b :: r, 0, _, _ =>
    match utf8Lead b with
    | none => false
    | some (n, lo, hi) => validUtf8Go r n lo hi
  | b :: r, n + 1, lo, hi =>
    (lo ≤ b && b ≤ hi) && validUtf8Go r n 128 191

/-- UTF-8 validity of a byte sequence, as checked by str::from_utf8 inside
CStr::to_str in Object::read. -/
def validUtf8 (l : List Nat) : Bool := validUtf8Go l 0 0 0

/-- Object kinds handled by the codec (enum Kind in objects.rs). -/
inductive Kind where
  | blob
  | tree
  | commit
deriving DecidableEq

/-- Lowercase kind name as printed by the Display instance for Kind. -/
def kindName : Kind → List Nat
  | .blob => strBytes "blob"
  | .tree => strBytes "tree"
  | .commit => strBytes "commit"

/-- Kind recognised from its name bytes, as matched in Object::read. -/
def kindOf (l : List Nat) : Option Kind :=
  if l = strBytes "blob" then some .blob
  else if l = strBytes "tree" then some .tree
  else if l = strBytes "commit" then some .commit
  else none

/-- Header bytes "kind size" written by Object::write before the NUL. -/
def hdrBytes (k : Kind) (n : Nat) : List Nat := kindName k ++ 32 :: decRepr n

/-- Canonical byte stream of an object: the bytes Object::write feeds into
the hasher and the compressor, namely "kind size\x00" then the payload
(expected_size equals the payload length in every in-repo use). -/
def encode (k : Kind) (p : List Nat) : List Nat := hdrBytes k p.length ++ 0 :: p

/-- Errors returned (bailed) by Object::read. -/
inductive ReadErr where
  | badUtf8
  | noSpace
  | unknownKind
  | badSize
deriving DecidableEq

/-- Outcome of Object::read on a decompressed byte stream: a decoded object,
a returned error, or a process abort coming from the expect call on
CStr::from_bytes_with_nul. -/
inductive ReadResult where
  | ok (kind : Kind) (size : Nat) (payload : List Nat)
  | err (e : ReadErr)
  | panicked
deriving DecidableEq

/-- Embedding of Object::read over the decompressed stream: read up to the
first NUL, require the buffer to end in that NUL (expect aborts otherwise),
check UTF-8, split at the first space, match the kind, parse the size as
u64, and hand back a reader limited to size bytes (Read::take). -/
def objectRead (stream : List Nat) : ReadResult :=
  let buf := (readUntil0 stream).1
  let rest := (readUntil0 stream).2
  if buf.getLast? = some 0 then
    let hdr := buf.dropLast
    if validUtf8 hdr then
      match splitSpace hdr with
      | none => .err .noSpace
      | some (kindB, sizeB) =>
        match kindOf kindB with
        | none => .err .unknownKind
        | some k =>
          match parseU64 sizeB with
          | none => .err .badSize
          | some n => .ok k n (rest.take n)
    else .err .badUtf8
  else .panicked

/-- Outcome of the cat-file command body (commands/cat_file.rs invoke). -/
inductive CatResult where
  | ok (payload : List Nat)
  | sizeMismatch
  | unsupported
  | readErr (e : ReadErr)
  | panicked
deriving DecidableEq

/-- Embedding of cat_file::invoke with pretty_print set: read the object,
copy the payload of a blob to stdout, then require the copied byte count to
equal the declared size; non-blob kinds bail. -/
def catFile (stream : List Nat) : CatResult :=
  match objectRead stream with
  | .ok .blob n payload => if payload.length = n then .ok payload else .sizeMismatch
  | .ok _ _ _ => .unsupported
  | .err e => .readErr e
  | .panicked => .panicked

/-- Left rotation of a 32-bit word represented as a natural below 2 ^ 32. -/
def rotl32 (n x : Nat) : Nat :=
  (x * 2 ^ n) % 4294967296 + x / 2 ^ (32 - n)

/-- Round constants of SHA-1 (the digest used through sha1::Sha1). -/
def sha1K (i : Nat) : Nat :=
  if i < 20 then 1518500249
  else if i < 40 then 1859775393
  else if i < 60 then 2400959708
  else 3395469782

/-- Round boolean functions of SHA-1. -/
def sha1F (i b c d : Nat) : Nat :=
  if i < 20 then (b &&& c) ||| ((b ^^^ 4294967295) &&& d)
  else if i < 40 then b ^^^ c ^^^ d
  else if i < 60 then (b &&& c) ||| (b &&& d) ||| (c &&& d)
  else b ^^^ c ^^^ d

/-- Group bytes into big-endian 32-bit words. -/
def be32Words : List Nat → List Nat
  | a :: b :: c :: d :: r => (((a * 256 + b) * 256 + c) * 256 + d) :: be32Words r
  | _ => []

/-- Message-schedule extension of SHA-1: append the given number of extra
words, each the rotation of the xor of four earlier words. -/
def sha1Ext (w : List Nat) : Nat → List Nat
  | 0 => w
  | t + 1 =>
    sha1Ext (w ++ [rotl32 1 (w.getD (w.length - 3) 0 ^^^ w.getD (w.length - 8) 0 ^^^
      w.getD (w.length - 14) 0 ^^^ w.getD (w.length - 16) 0)]) t

/-- One SHA-1 round applied to the five-word state. -/
def sha1Step (st : Nat × Nat × Nat × Nat × Nat) (iw : Nat × Nat) :
    Nat × Nat × Nat × Nat × Nat :=
  let (a, b, c, d, e) := st
  let (i, w) := iw
  ((rotl32 5 a + sha1F i b c d + e + sha1K i + w) % 4294967296, a, rotl32 30 b, c, d)

/-- Compression of one 64-byte block into the chaining state. -/
def sha1Block (h : Nat × Nat × Nat × Nat × Nat) (block : List Nat) :
    Nat × Nat × Nat × Nat × Nat :=
  let ws := sha1Ext (be32Words block) 64
  let (a, b, c, d, e) := List.foldl sha1Step h ((List.range 80).zip ws)
  let (h0, h1, h2, h3, h4) := h
  ((h0 + a) % 4294967296, (h1 + b) % 4294967296, (h2 + c) % 4294967296,
   (h3 + d) % 4294967296, (h4 + e) % 4294967296)

/-- Fold the compression over consecutive 64-byte blocks (fuel bounds the
number of blocks; the caller passes more fuel than bytes). -/
def sha1Blocks (h : Nat × Nat × Nat × Nat × Nat) (l : List Nat) :
    Nat → Nat × Nat × Nat × Nat × Nat
  | 0 => h
  | fuel + 1 =>
    match l with
    | [] => h
    | _ => sha1Blocks (sha1Block h (l.take 64)) (l.drop 64) fuel

/-- Big-endian bytes of a 64-bit length field. -/
def be64Bytes (n : Nat) : List Nat :=
  [n / 2 ^ 56 % 256, n / 2 ^ 48 % 256, n / 2 ^ 40 % 256, n / 2 ^ 32 % 256,
   n / 2 ^ 24 % 256, n / 2 ^ 16 % 256, n / 2 ^ 8 % 256, n % 256]

/-- SHA-1 padding: a 0x80 byte, zero fill to 56 mod 64, then the bit length. -/
def sha1Pad (msg : List Nat) : List Nat :=
  msg ++ 128 :: List.replicate ((119 - msg.length % 64) % 64) 0 ++ be64Bytes (8 * msg.length)

/-- Big-endian bytes of one 32-bit state word. -/
def be32Bytes (n : Nat) : List Nat :=
  [n / 2 ^ 24 % 256, n / 2 ^ 16 % 256, n / 2 ^ 8 % 256, n % 256]

/-- The SHA-1 digest (20 bytes) of a byte sequence, the hash used by
Object::write through the sha1 crate. -/
def sha1 (msg : List Nat) : List Nat :=
  let p := sha1Pad msg
  let s := sha1Blocks (1732584193, 4023233417, 2562383102, 271733878, 3285377520) p (p.length + 1)
  be32Bytes s.1 ++ be32Bytes s.2.1 ++ be32Bytes s.2.2.1 ++ be32Bytes s.2.2.2.1 ++
    be32Bytes s.2.2.2.2

/-- Lowercase hexadecimal digit for a value below 16. -/
def hexChar (d : Nat) : Char :=
  Char.ofNat (if d < 10 then 48 + d else 87 + d)

/-- Lowercase hexadecimal rendering of a byte sequence (hex::encode). -/
def hexEncode (l : List Nat) : List Char :=
  l.foldr (fun b acc => hexChar (b / 16) :: hexChar (b % 16) :: acc) []

/-- The on-disk object store: a partial map from paths (char lists) to the
stored byte contents.  The zlib stream written for an object is a fixed
deterministic encoding of the canonical bytes, so stored contents are
represented by the canonical bytes themselves. -/
def Store : Type := List Char → Option (List Nat)

/-- Update of the store at one path (file creation or overwrite). -/
def storeSet (st : Store) (p : List Char) (v : List Nat) : Store :=
  fun q => if q = p then some v else st q

/-- Removal of one path from the store (the source side of a rename). -/
def storeDel (st : Store) (p : List Char) : Store :=
  fun q => if q = p then none else st q

/-- The store with no objects. -/
def emptyStore : Store := fun _ => none

/-- Filesystem operations performed by a store write, in order. -/
inductive FsOp where
  | createFile (p : List Char)
  | createDirAll (p : List Char)
  | rename (src dst : List Char)
deriving DecidableEq

/-- Result of Object::write_to_objects: the store afterwards, the returned
hash, and the filesystem operations that were performed. -/
structure WriteOut where
  store : Store
  hash : List Nat
  ops : List FsOp

/-- The fixed temporary path literal used by write_to_objects and by the
blob branch of write_tree_for. -/
def tmpPath : List Char := "temporary".data

/-- Directory segment ".git/objects/xx/" derived from a hex digest. -/
def objectDirPath (hx : List Char) : List Char :=
  ".git/objects/".data ++ hx.take 2 ++ ['/']

/-- Destination path ".git/objects/xx/rest" derived from a hex digest. -/
def objectPath (hx : List Char) : List Char :=
  objectDirPath hx ++ hx.drop 2

/-- Embedding of Object::write_to_objects: stream the canonical bytes into a
file at the fixed path "temporary" (hashing the uncompressed bytes through
HashWriter while compressing them), create the fan-out directory, then
rename the temporary file onto the hash-derived destination.  There is no
check whether the destination already exists. -/
def writeToObjects (k : Kind) (p : List Nat) (st : Store) : WriteOut :=
  let canonical := encode k p
  let h := sha1 canonical
  let hx := hexEncode h
  { store := storeSet (storeDel (storeSet st tmpPath canonical) tmpPath) (objectPath hx) canonical
    hash := h
    ops := [.createFile tmpPath, .createDirAll (objectDirPath hx),
            .rename tmpPath (objectPath hx)] }

/-- The temporary path a call to write_to_objects stages through, read off
the first filesystem operation it performs. -/
def stagingPath (w : WriteOut) : Option (List Char) :=
  match w.ops with
  | .createFile p :: _ => some p
  | _ => none

/-- The fixed identity used for both the author and the committer line in
commit_tree::write_commit. -/
def identLine : String := "root <root@vmi2447354.contaboserver.net>"

/-- Embedding of commit_tree::write_commit payload construction: a tree
line, an optional parent line, author and committer lines, and then the
message, every piece written with writeln! and therefore followed by a
newline.  No separate blank line is emitted before the message. -/
def writeCommit (message treeHash : String) (parent : Option String) : String :=
  "tree " ++ treeHash ++ "\n"
    ++ (match parent with
        | some p => "parent " ++ p ++ "\n"
        | none => "")
    ++ "author " ++ identLine ++ "\n"
    ++ "committer " ++ identLine ++ "\n"
    ++ message ++ "\n"

/-- Modelled from the spec: the commit payload sub-format, with the header
lines followed by a blank line and then the message verbatim. -/
def commitPayloadSpec (message treeHash : String) (parent : Option String) : String :=
  "tree " ++ treeHash ++ "\n"
    ++ (match parent with
        | some p => "parent " ++ p ++ "\n"
        | none => "")
    ++ "author " ++ identLine ++ "\n"
    ++ "committer " ++ identLine ++ "\n"
    ++ "\n"
    ++ message

/-- Modelled from the spec: the message of a commit payload is the text
after the first blank line, none when no blank line exists. -/
def splitMessage : List Char → Option (List Char)
  | '\n' :: '\n' :: rest => some rest
  | _ :: rest => splitMessage rest
  | [] => none

/-- Byte-wise lexicographic comparison of two byte sequences. -/
def byteCmp : List Nat → List Nat → Ordering
  | [], [] => .eq
  | [], _ :: _ => .lt
  | _ :: _, [] => .gt
  | a :: as, b :: bs =>
    match compare a b with
    | .eq => byteCmp as bs
    | o => o

/-- Embedding of the comparator passed to sort_unstable_by in
write_tree_for: compare the common-length byte slices; on a tie, equal
lengths compare equal, and when one name is shorter, the pair compares
equal if the shorter-named entry is a directory, otherwise the shorter name
comes first. -/
def cmpNames (an : List Nat) (aDir : Bool) (bn : List Nat) (bDir : Bool) : Ordering :=
  let m := min an.length bn.length
  match byteCmp (an.take m) (bn.take m) with
  | .eq =>
    if an.length = bn.length then .eq
    else if (aDir && decide (an.length < bn.length))
        || (bDir && decide (bn.length < an.length)) then .eq
    else if an.length < bn.length then .lt
    else .gt
  | o => o

/-- Modelled from the spec: the name comparison that treats a directory
name as if a trailing path separator byte were appended. -/
def nameCmpSpec (an : List Nat) (aDir : Bool) (bn : List Nat) (bDir : Bool) : Ordering :=
  byteCmp (an ++ if aDir then [47] else []) (bn ++ if bDir then [47] else [])

mutual
/-- A directory entry of the working tree: a regular file with its
executable bit and content, or a subdirectory.  Symlinks never occur in the
properties below and are omitted. -/
inductive FSEntry where
  | file (name : List Nat) (execBit : Bool) (content : List Nat)
  | dir (name : List Nat) (children : FSList)
/-- A list of directory entries, as a mutual inductive so that recursion
over the tree is structural. -/
inductive FSList where
  | nil
  | cons (e : FSEntry) (rest : FSList)
end

mutual
/-- True when the entry is a directory whose recursion yields no entries at
any depth (so write_tree_for returns None for it). -/
def FSEntry.emptyRec : FSEntry → Bool
  | .file _ _ _ => false
  | .dir _ cs => FSList.allEmpty cs
/-- True when every entry of the list is a recursively empty directory. -/
def FSList.allEmpty : FSList → Bool
  | .nil => true
  | .cons e rest => e.emptyRec && rest.allEmpty
end

/-- What the write_tree_for loop records about one directory entry: its
name, whether it is a directory, its mode string, the hash recorded for it
(none for a directory whose recursion yielded nothing), and the canonical
byte streams persisted while processing it. -/
structure TreeInfo where
  name : List Nat
  isDir : Bool
  mode : List Nat
  hash : Option (List Nat)
  writes : List (List Nat)
deriving DecidableEq

/-- Name of the repository metadata directory skipped by write_tree_for. -/
def gitDirName : List Nat := strBytes ".git"

/-- Comparator on collected entries, as used for the sort. -/
def cmpInfo (i j : TreeInfo) : Ordering := cmpNames i.name i.isDir j.name j.isDir

/-- Insertion into a sorted list: walk past entries that compare strictly
below the new one.  On a two-element list this coincides with the
compare-and-swap done by sort_unstable_by. -/
def insertEntry (i : TreeInfo) : List TreeInfo → List TreeInfo
  | [] => [i]
  | j :: rest => if cmpInfo i j = .gt then j :: insertEntry i rest else i :: j :: rest

/-- Deterministic sort with the write_tree_for comparator, standing in for
sort_unstable_by.  The comparator is not a total order, so the Rust sort
has unspecified output on some inputs; this stable insertion sort agrees
with it on every input used below. -/
def sortEntries : List TreeInfo → List TreeInfo
  | [] => []
  | i :: rest => insertEntry i (sortEntries rest)

/-- One serialized tree entry: "mode name\x00" then the 20 raw hash bytes. -/
def entryLine (i : TreeInfo) (h : List Nat) : List Nat :=
  i.mode ++ 32 :: (i.name ++ 0 :: h)

/-- The write_tree_for loop over the sorted entries: skip .git, skip
directory entries without a hash (their recursive writes having already
happened), and append a serialized entry for the rest; the second component
collects the canonical streams persisted, in loop order. -/
def assemble : List TreeInfo → List Nat × List (List Nat)
  | [] => ([], [])
  | i :: rest =>
    if i.name = gitDirName then assemble rest
    else
      match i.hash with
      | none => ((assemble rest).1, i.writes ++ (assemble rest).2)
      | some h => (entryLine i h ++ (assemble rest).1, i.writes ++ (assemble rest).2)

/-- Tail of write_tree_for on the collected entries: sort, run the loop,
and if the tree payload is empty return None and persist nothing more,
otherwise persist the tree object and return its hash. -/
def assembleDir (l : List TreeInfo) : Option (List Nat) × List (List Nat) :=
  let s := sortEntries l
  let p := (assemble s).1
  let w := (assemble s).2
  if p = [] then (none, w) else (some (sha1 (encode .tree p)), w ++ [encode .tree p])

mutual
/-- The information write_tree_for ends up with for one entry: files are
hashed and persisted as blobs with mode 100755 or 100644; directories carry
mode 40000 and the result of the recursive call. -/
def infoOf : FSEntry → TreeInfo
  | .file n x c =>
    { name := n, isDir := false,
      mode := if x then strBytes "100755" else strBytes "100644",
      hash := some (sha1 (encode .blob c)), writes := [encode .blob c] }
  | .dir n cs =>
    { name := n, isDir := true, mode := strBytes "40000",
      hash := (assembleDir (infosOf cs)).1, writes := (assembleDir (infosOf cs)).2 }
/-- Entry information for every child of a directory, in enumeration
order. -/
def infosOf : FSList → List TreeInfo
  | .nil => []
  | .cons e r => infoOf e :: infosOf r
end

/-- Embedding of write_tree_for on a directory with the given children:
the optional tree hash and the canonical byte streams persisted. -/
def writeTreeFor (cs : FSList) : Option (List Nat) × List (List Nat) :=
  assembleDir (infosOf cs)

/-- Embedding of main.rs validate_object_hash: the argument parser used for
the object-hash arguments of cat-file, ls-tree and commit-tree.  It checks
that the byte length is 40 (String::len counts UTF-8 bytes) and that every
char is an ASCII hex digit. -/
def utf8CharLen (c : Char) : Nat :=
  if c.toNat < 128 then 1 else if c.toNat < 2048 then 2
  else if c.toNat < 65536 then 3 else 4

/-- ASCII hex digit test on a char (char::is_ascii_hexdigit). -/
def isHexChar (c : Char) : Bool :=
  (48 ≤ c.toNat && c.toNat ≤ 57) || (97 ≤ c.toNat && c.toNat ≤ 102)
    || (65 ≤ c.toNat && c.toNat ≤ 70)

/-- Acceptance of validate_object_hash: true exactly when the function
returns Ok (the checks are length 40, then all chars hex). -/
def validateObjectHash (s : List Char) : Bool :=
  decide ((s.map utf8CharLen).sum = 40) && s.all isHexChar

/-- A directory named foo holding one regular file, used to exhibit the
comparator behaviour on a name that is a proper prefix of a sibling name. -/
def fooDir : FSEntry :=
  .dir (strBytes "foo") (.cons (.file (strBytes "bar") false (strBytes "x")) .nil)

/-- A sibling regular file named foo.txt. -/
def fooTxt : FSEntry := .file (strBytes "foo.txt") false (strBytes "y")

/-- The two entries enumerated with the directory first. -/
def fsAB : FSList := .cons fooDir (.cons fooTxt .nil)

/-- The two entries enumerated with the file first. -/
def fsBA : FSList := .cons fooTxt (.cons fooDir .nil)

/-- Every byte produced by decReprGo is a decimal digit byte. -/
theorem decReprGo_digits : ∀ fuel n, (decReprGo fuel n).all isDigitB = true := by
  intro fuel
  induction fuel with
  | zero => intro n; rfl
  | succ f ih =>
    intro n
    by_cases h : n = 0
    · simp [decReprGo, h]
    · have h10 : n % 10 < 10 := Nat.mod_lt _ (by omega)
      simp only [decReprGo, h, if_false, List.all_append, ih, Bool.true_and, List.all_cons,
        List.all_nil, Bool.and_true, isDigitB]
      simp only [Bool.and_eq_true, decide_eq_true_eq]
      omega

/-- Folding the decimal digits of n onto an accumulator recovers n. -/
theorem decReprGo_foldl : ∀ fuel n a, n ≤ fuel →
    List.foldl (fun x b => 10 * x + (b - 48)) a (decReprGo fuel n)
      = a * 10 ^ (decReprGo fuel n).length + n := by
  intro fuel
  induction fuel with
  | zero =>
    intro n a h
    interval_cases n
    simp [decReprGo]
  | succ f ih =>
    intro n a h
    by_cases h0 : n = 0
    · simp [decReprGo, h0]
    · have hdiv : n / 10 ≤ f := by
        have : n / 10 < n := Nat.div_lt_self (by omega) (by omega)
        omega
      have hmod : n % 10 < 10 := Nat.mod_lt _ (by omega)
      simp only [decReprGo, h0, if_false, List.foldl_append, List.foldl_cons, List.foldl_nil,
        List.length_append, List.length_cons, List.length_nil]
      rw [ih (n / 10) a hdiv]
      have hsub : 48 + n % 10 - 48 = n % 10 := by omega
      rw [hsub]
      have hdm : 10 * (n / 10) + n % 10 = n := Nat.div_add_mod n 10
      ring_nf
      omega

/-- The digit bytes of decRepr. -/
theorem decRepr_digits (n : Nat) : (decRepr n).all isDigitB = true := by
  by_cases h : n = 0
  · simp [decRepr, h, isDigitB]
  · simp only [decRepr, h, if_false]
    exact decReprGo_digits n n

/-- decReprGo is nonempty on positive input with positive fuel. -/
theorem decReprGo_ne_nil (f n : Nat) (h : n ≠ 0) : decReprGo (f + 1) n ≠ [] := by
  simp [decReprGo, h]

/-- decRepr is never empty. -/
theorem decRepr_ne_nil (n : Nat) : decRepr n ≠ [] := by
  by_cases h : n = 0
  · simp [decRepr, h]
  · simp only [decRepr, h, if_false]
    obtain ⟨m, rfl⟩ := Nat.exists_eq_succ_of_ne_zero h
    exact decReprGo_ne_nil m (m + 1) h

/-- Parsing the decimal rendering of n yields n back, for n within u64. -/
theorem parseU64_decRepr (n : Nat) (h : n < 18446744073709551616) :
    parseU64 (decRepr n) = some n := by
  have hdig := decRepr_digits n
  have hne := decRepr_ne_nil n
  have hhead : (decRepr n).head? ≠ some 43 := by
    intro hh
    have hmem : 43 ∈ decRepr n := by
      cases hl : decRepr n with
      | nil => exact absurd hl hne
      | cons b t =>
        rw [hl] at hh
        simp only [List.head?_cons, Option.some.injEq] at hh
        rw [← hh]
        exact List.mem_cons_self b t
    have := (List.all_eq_true.mp hdig) 43 hmem
    simp [isDigitB] at this
  have hval : decVal (decRepr n) = n := by
    by_cases h0 : n = 0
    · simp [decRepr, h0, decVal]
    · simp only [decRepr, h0, if_false, decVal]
      rw [decReprGo_foldl n n 0 (le_refl n)]
      ring
  have hl2 : (if (decRepr n).head? = some 43 then (decRepr n).tail else decRepr n) = decRepr n :=
    if_neg hhead
  simp only [parseU64, hl2]
  simp [List.isEmpty_iff, hne, hdig, hval, h]

/-- read_until consumes exactly a NUL-free run followed by the delimiter. -/
theorem readUntil0_append (a r : List Nat) (h : ∀ x ∈ a, x ≠ 0) :
    readUntil0 (a ++ 0 :: r) = (a ++ [0], r) := by
  induction a with
  | nil => simp [readUntil0]
  | cons b t ih =>
    have hb : b ≠ 0 := h b (List.mem_cons_self b t)
    have ht : ∀ x ∈ t, x ≠ 0 := fun x hx => h x (List.mem_cons_of_mem b hx)
    simp [readUntil0, hb, ih ht]

/-- read_until consumes the entire stream when no NUL exists. -/
theorem readUntil0_noZero (s : List Nat) (h : ∀ x ∈ s, x ≠ 0) :
    readUntil0 s = (s, []) := by
  induction s with
  | nil => rfl
  | cons b t ih =>
    have hb : b ≠ 0 := h b (List.mem_cons_self b t)
    have ht : ∀ x ∈ t, x ≠ 0 := fun x hx => h x (List.mem_cons_of_mem b hx)
    simp [readUntil0, hb, ih ht]

/-- A NUL-free list does not end in a NUL. -/
theorem getLast?_ne_zero (s : List Nat) (h : ∀ x ∈ s, x ≠ 0) :
    s.getLast? ≠ some 0 := by
  intro hl
  cases s with
  | nil => simp at hl
  | cons b t =>
    have : (b :: t).getLast ((by simp) : b :: t ≠ []) ∈ b :: t := List.getLast_mem _
    rw [List.getLast?_eq_getLast _ ((by simp) : b :: t ≠ [])] at hl
    exact h _ this (Option.some.injEq _ _ ▸ hl)

/-- split_once on a space-free run followed by a space splits there. -/
theorem splitSpace_append (a r : List Nat) (h : ∀ x ∈ a, x ≠ 32) :
    splitSpace (a ++ 32 :: r) = some (a, r) := by
  induction a with
  | nil => simp [splitSpace]
  | cons b t ih =>
    have hb : b ≠ 32 := h b (List.mem_cons_self b t)
    have ht : ∀ x ∈ t, x ≠ 32 := fun x hx => h x (List.mem_cons_of_mem b hx)
    simp [splitSpace, hb, ih ht]

/-- ASCII byte sequences are valid UTF-8. -/
theorem validUtf8_ascii (l : List Nat) (h : ∀ x ∈ l, x ≤ 127) : validUtf8 l = true := by
  show validUtf8Go l 0 0 0 = true
  induction l with
  | nil => rfl
  | cons b t ih =>
    have hb : b ≤ 127 := h b (List.mem_cons_self b t)
    have ht : ∀ x ∈ t, x ≤ 127 := fun x hx => h x (List.mem_cons_of_mem b hx)
    have hl : utf8Lead b = some (0, 0, 0) := by simp [utf8Lead, hb]
    simp [validUtf8Go, hl, ih ht]

/-- Bytes of a kind name are neither NUL nor space and are ASCII. -/
theorem kindName_bytes (k : Kind) : ∀ x ∈ kindName k, x ≠ 0 ∧ x ≠ 32 ∧ x ≤ 127 := by
  cases k <;> decide

/-- Digit bytes of a decimal rendering are neither NUL nor space, and ASCII. -/
theorem decRepr_bytes (n : Nat) : ∀ x ∈ decRepr n, x ≠ 0 ∧ x ≠ 32 ∧ x ≤ 127 := by
  intro x hx
  have hd := List.all_eq_true.mp (decRepr_digits n) x hx
  simp only [isDigitB, Bool.and_eq_true, decide_eq_true_eq] at hd
  refine ⟨by omega, by omega, by omega⟩

/-- The kind match in Object::read recognises every kind name. -/
theorem kindOf_kindName (k : Kind) : kindOf (kindName k) = some k := by
  cases k <;> decide

/-- Object::read on a stream consisting of a well-formed header followed by
a body decodes the kind and size and returns the body truncated to the
declared size, with no comparison of the declared size against the number
of bytes actually present. -/
theorem objectRead_header (k : Kind) (n : Nat) (rest : List Nat)
    (h : n < 18446744073709551616) :
    objectRead (hdrBytes k n ++ 0 :: rest) = .ok k n (rest.take n) := by
  have hkc := kindName_bytes k
  have hdc := decRepr_bytes n
  have hh0 : ∀ x ∈ hdrBytes k n, x ≠ 0 := by
    intro x hx
    simp only [hdrBytes, List.mem_append, List.mem_cons] at hx
    rcases hx with hk | h32 | hd
    · exact (hkc x hk).1
    · omega
    · exact (hdc x hd).1
  have hread := readUntil0_append (hdrBytes k n) rest hh0
  have hlast : ((hdrBytes k n) ++ [0]).getLast? = some 0 := by simp
  have hdrop : ((hdrBytes k n) ++ [0]).dropLast = hdrBytes k n := by simp
  have hutf : validUtf8 (hdrBytes k n) = true := by
    apply validUtf8_ascii
    intro x hx
    simp only [hdrBytes, List.mem_append, List.mem_cons] at hx
    rcases hx with hk | h32 | hd
    · exact (hkc x hk).2.2
    · omega
    · exact (hdc x hd).2.2
  have hsplit : splitSpace (hdrBytes k n) = some (kindName k, decRepr n) :=
    splitSpace_append _ _ (fun x hx => (hkc x hx).2.1)
  have hkind := kindOf_kindName k
  have hparse := parseU64_decRepr n h
  simp only [objectRead, hread, hlast, hdrop, hutf, hsplit, hkind, hparse, if_pos, if_true]

/-- Claim C1: decoding the canonical encoding of a kind and a payload gives
back exactly that kind, the payload length as the declared size, and the
payload itself (the length bound reflects the u64 size parse; every
representable payload satisfies it). -/
theorem objectCodec_roundTrip (k : Kind) (p : List Nat)
    (h : p.length < 18446744073709551616) :
    objectRead (encode k p) = .ok k p.length p := by
  have hh := objectRead_header k p.length p h
  rw [encode, hh, List.take_length]

/-- Witness for C1 at a concrete kind and payload. -/
theorem objectCodec_roundTrip_witness :
    ([104, 105] : List Nat).length < 18446744073709551616
      ∧ objectRead (encode .blob [104, 105]) = .ok .blob 2 [104, 105] :=
  ⟨by decide, objectCodec_roundTrip .blob [104, 105] (by decide)⟩

/-- Claim C6 (counterexample): a stored blob stream declaring length 3 but
followed by 4 payload bytes is read back successfully with the payload
silently truncated to 3 bytes; neither Object::read nor cat-file reports a
size mismatch for trailing garbage. -/
theorem trailingGarbage_silentTruncation :
    objectRead (strBytes "blob 3" ++ 0 :: strBytes "abcd") = .ok .blob 3 (strBytes "abc")
      ∧ catFile (strBytes "blob 3" ++ 0 :: strBytes "abcd") = .ok (strBytes "abc") := by
  decide

/-- Claim C6 (amended): Object::read never compares the declared length
with the bytes present; it truncates the body to the declared length.  For
blob objects the cat-file caller then fails exactly when fewer bytes than
declared were present, while surplus bytes are silently dropped. -/
theorem sizeCheck_behavior (s : Nat) (b : List Nat) (h : s < 18446744073709551616) :
    catFile (hdrBytes .blob s ++ 0 :: b) =
      if s ≤ b.length then CatResult.ok (b.take s) else CatResult.sizeMismatch := by
  rw [catFile, objectRead_header .blob s b h]
  dsimp only
  rw [List.length_take]
  by_cases hle : s ≤ b.length
  · rw [if_pos (show min s b.length = s by omega), if_pos hle]
  · rw [if_neg (show ¬min s b.length = s by omega), if_neg hle]

/-- Witness for the amended C6 statement at a concrete size and body. -/
theorem sizeCheck_behavior_witness :
    catFile (hdrBytes .blob 2 ++ 0 :: strBytes "abc") = .ok (strBytes "ab") := by
  have h := sizeCheck_behavior 2 (strBytes "abc") (by decide)
  rw [if_pos (by decide)] at h
  exact h.trans (by decide)

/-- Claim C9 (counterexample): a stored stream with no NUL terminator makes
Object::read abort through the expect call instead of returning a
malformed-header error. -/
theorem read_noNul_aborts_concrete : objectRead [98] = .panicked := by decide

/-- Claim C9 (amended): on any decompressed stream containing no NUL byte
at all, the header scan consumes the whole stream (there is no bounded
prefix) and Object::read aborts via expect rather than returning an
error. -/
theorem read_noNul_aborts (s : List Nat) (h : ∀ x ∈ s, x ≠ 0) :
    objectRead s = .panicked := by
  have hr := readUntil0_noZero s h
  have hl := getLast?_ne_zero s h
  simp only [objectRead, hr]
  rw [if_neg hl]

/-- Witness for the amended C9 statement at a concrete NUL-free stream. -/
theorem read_noNul_aborts_witness : objectRead [98, 108] = .panicked :=
  read_noNul_aborts [98, 108] (by decide)

/-- Claim C2 (counterexample): the hex digest printed for a blob with
content "hello\n" is not the 39-character string given in the
specification scenario. -/
theorem blobHelloDigest_not_specString :
    String.mk (hexEncode (writeToObjects .blob (strBytes "hello\n") emptyStore).hash)
      ≠ "ce013625030ba8dba906f756967f9e9ca394464" := by
  decide

/-- Claim C2 (amended): the hash is computed by HashWriter over the
uncompressed canonical bytes (writeToObjects hashes encode of the payload,
never the compressed stream), and for a blob with content "hello\n" the
printed hex digest is ce013625030ba8dba906f756967f9e9ca394464a. -/
theorem blobHelloDigest :
    String.mk (hexEncode (writeToObjects .blob (strBytes "hello\n") emptyStore).hash)
      = "ce013625030ba8dba906f756967f9e9ca394464a"
      ∧ (writeToObjects .blob (strBytes "hello\n") emptyStore).hash
          = sha1 (encode .blob (strBytes "hello\n")) := by
  exact ⟨by decide, rfl⟩

/-- Claim C3: the comparator of write_tree_for reports the directory foo
and the file foo.txt as Equal, where the trailing-separator rule of the
specification orders the directory strictly after the file; consequently
the same two entries enumerated in the two possible orders produce
different tree hashes. -/
theorem treeSort_comparator_bug :
    cmpNames (strBytes "foo") true (strBytes "foo.txt") false = .eq
      ∧ nameCmpSpec (strBytes "foo") true (strBytes "foo.txt") false = .gt
      ∧ (writeTreeFor fsAB).1 ≠ (writeTreeFor fsBA).1 := by
  decide

/-- Claim C5: for message "init\n", a 40-character tree hash and no parent,
the payload written by write_commit has no blank line between the committer
line and the message and carries an extra newline appended by writeln, so
decoding it by the first-blank-line rule yields the empty message, not
"init\n"; the payload the specification describes decodes to "init\n". -/
theorem commitPayload_missingBlankLine :
    splitMessage (writeCommit "init\n" (String.mk (List.replicate 40 'a')) none).data = some []
      ∧ splitMessage
          (commitPayloadSpec "init\n" (String.mk (List.replicate 40 'a')) none).data
          = some "init\n".data
      ∧ writeCommit "init\n" (String.mk (List.replicate 40 'a')) none
          ≠ commitPayloadSpec "init\n" (String.mk (List.replicate 40 'a')) none := by
  decide

/-- Claim C4 (counterexample): with the destination path already holding
the object, write_to_objects still performs the full create-and-rename
sequence; no branch skips the write. -/
theorem writeExisting_notSkipped :
    storeSet emptyStore (objectPath (hexEncode (sha1 (encode .blob (strBytes "hi")))))
        (encode .blob (strBytes "hi"))
        (objectPath (hexEncode (sha1 (encode .blob (strBytes "hi")))))
      = some (encode .blob (strBytes "hi"))
      ∧ (writeToObjects .blob (strBytes "hi")
          (storeSet emptyStore (objectPath (hexEncode (sha1 (encode .blob (strBytes "hi")))))
            (encode .blob (strBytes "hi")))).ops
        = [.createFile tmpPath,
           .createDirAll (objectDirPath (hexEncode (sha1 (encode .blob (strBytes "hi"))))),
           .rename tmpPath (objectPath (hexEncode (sha1 (encode .blob (strBytes "hi")))))] := by
  exact ⟨by simp [storeSet], rfl⟩

/-- The fixed temporary path differs from every hash-derived destination. -/
theorem tmpPath_ne_objectPath (hx : List Char) : tmpPath ≠ objectPath hx := by
  intro h
  have hlen := congrArg List.length h
  have h9 : tmpPath.length = 9 := by decide
  have h13 : (".git/objects/".data).length = 13 := by decide
  simp only [objectPath, objectDirPath, List.length_append, h13] at hlen
  omega

/-- Claim C4 (amended): writing the same canonical bytes twice returns the
same hash, and the second write leaves the store exactly as the first left
it (the rename re-deposits identical content); the write is re-performed,
not skipped. -/
theorem writeTwice_idempotent (k : Kind) (p : List Nat) (st : Store) :
    (writeToObjects k p (writeToObjects k p st).store).hash = (writeToObjects k p st).hash
      ∧ (writeToObjects k p (writeToObjects k p st).store).store
          = (writeToObjects k p st).store := by
  refine ⟨rfl, ?_⟩
  funext q
  simp only [writeToObjects, storeSet, storeDel]
  have hne := tmpPath_ne_objectPath (hexEncode (sha1 (encode k p)))
  by_cases hd : q = objectPath (hexEncode (sha1 (encode k p)))
  · simp [hd]
  · by_cases ht : q = tmpPath
    · subst ht
      simp [hne]
    · simp [hd, ht]

/-- Claim C7: every call of write_to_objects stages its output through the
same fixed path "temporary"; the staging path does not depend on the
object, the store state, or the call. -/
theorem tempPath_shared_fixed (k : Kind) (p : List Nat) (st : Store) :
    stagingPath (writeToObjects k p st) = some tmpPath := rfl

/-- Membership in an insertion comes from the inserted element or the list. -/
theorem mem_insertEntry (i j : TreeInfo) : ∀ l, i ∈ insertEntry j l → i = j ∨ i ∈ l := by
  intro l
  induction l with
  | nil =>
    intro h
    rw [insertEntry] at h
    rcases List.mem_cons.mp h with h1 | h1
    · exact Or.inl h1
    · exact Or.inr h1
  | cons x xs ih =>
    intro h
    rw [insertEntry] at h
    by_cases hc : cmpInfo j x = .gt
    · rw [if_pos hc] at h
      rcases List.mem_cons.mp h with h1 | h1
      · exact Or.inr (List.mem_cons.mpr (Or.inl h1))
      · rcases ih h1 with h2 | h2
        · exact Or.inl h2
        · exact Or.inr (List.mem_cons.mpr (Or.inr h2))
    · rw [if_neg hc] at h
      rcases List.mem_cons.mp h with h1 | h1
      · exact Or.inl h1
      · exact Or.inr h1

/-- Membership is preserved backwards by the sort. -/
theorem mem_sortEntries (i : TreeInfo) : ∀ l, i ∈ sortEntries l → i ∈ l := by
  intro l
  induction l with
  | nil => intro h; simp [sortEntries] at h
  | cons x xs ih =>
    intro h
    rcases mem_insertEntry i x (sortEntries xs) h with h1 | h2
    · simp [h1]
    · exact List.mem_cons_of_mem x (ih h2)

/-- The loop output on entries that all carry no hash and no writes is
empty. -/
theorem assemble_trivial : ∀ l : List TreeInfo,
    (∀ i ∈ l, i.hash = none ∧ i.writes = []) → assemble l = ([], []) := by
  intro l
  induction l with
  | nil => intro _; rfl
  | cons i rest ih =>
    intro h
    have hi := h i (List.mem_cons_self i rest)
    have hr : ∀ j ∈ rest, j.hash = none ∧ j.writes = [] :=
      fun j hj => h j (List.mem_cons_of_mem i hj)
    by_cases hg : i.name = gitDirName
    · simp only [assemble, hg, if_pos]
      exact ih hr
    · simp only [assemble, hg, if_neg, hi.1, hi.2, ih hr]
      simp

/-- When the loop output payload is empty, every write it collected came
from an entry with no hash and empty writes, so the writes are empty too. -/
theorem assemble_none_writes : ∀ l : List TreeInfo,
    (∀ i ∈ l, i.hash = none → i.writes = []) → (assemble l).1 = [] → (assemble l).2 = [] := by
  intro l
  induction l with
  | nil => intro _ _; rfl
  | cons i rest ih =>
    intro h hp
    have hr : ∀ j ∈ rest, j.hash = none → j.writes = [] :=
      fun j hj => h j (List.mem_cons_of_mem i hj)
    by_cases hg : i.name = gitDirName
    · simp only [assemble, hg, if_pos] at hp ⊢
      exact ih hr hp
    · cases hh : i.hash with
      | some v =>
        exfalso
        simp only [assemble, hg, if_neg, hh] at hp
        simp [entryLine] at hp
      | none =>
        have hw := h i (List.mem_cons_self i rest) hh
        simp only [assemble, hg, if_neg, hh, hw] at hp ⊢
        simp only [List.nil_append]
        exact ih hr hp

/-- Dropping an entry with no hash and no writes anywhere in the loop input
leaves the loop output unchanged. -/
theorem assemble_skip (i : TreeInfo) (h1 : i.hash = none) (h2 : i.writes = []) :
    ∀ l1 l2 : List TreeInfo, assemble (l1 ++ i :: l2) = assemble (l1 ++ l2) := by
  intro l1
  induction l1 with
  | nil =>
    intro l2
    by_cases hg : i.name = gitDirName
    · simp [assemble, hg]
    · simp [assemble, hg, h1, h2]
  | cons x xs ih =>
    intro l2
    by_cases hg : x.name = gitDirName
    · simp [assemble, hg, ih]
    · cases hh : x.hash with
      | some v => simp [assemble, hg, hh, ih]
      | none => simp [assemble, hg, hh, ih]

/-- The insertion of an entry splits the target list around it. -/
theorem insertEntry_split (j : TreeInfo) : ∀ l : List TreeInfo,
    ∃ l1 l2, l = l1 ++ l2 ∧ insertEntry j l = l1 ++ j :: l2 := by
  intro l
  induction l with
  | nil => exact ⟨[], [], rfl, rfl⟩
  | cons x xs ih =>
    by_cases hc : cmpInfo j x = .gt
    · obtain ⟨l1, l2, he, hi⟩ := ih
      refine ⟨x :: l1, l2, by simp [he], ?_⟩
      simp [insertEntry, hc, hi]
    · exact ⟨[], x :: xs, rfl, by simp [insertEntry, hc]⟩

/-- Prepending an entry with no hash and no writes to the collected list
does not change the directory result. -/
theorem assembleDir_cons_trivial (i : TreeInfo) (h1 : i.hash = none) (h2 : i.writes = [])
    (l : List TreeInfo) : assembleDir (i :: l) = assembleDir l := by
  have hs : sortEntries (i :: l) = insertEntry i (sortEntries l) := rfl
  obtain ⟨l1, l2, he, hi⟩ := insertEntry_split i (sortEntries l)
  rw [assembleDir, assembleDir, hs, hi, assemble_skip i h1 h2 l1 l2, ← he]

mutual
/-- An entry recorded without a hash also recorded no writes. -/
theorem infoOf_none_writes : ∀ e : FSEntry, (infoOf e).hash = none → (infoOf e).writes = []
  | .file n x c, h => by simp [infoOf] at h
  | .dir n cs, h => by
    have hs : ∀ i ∈ sortEntries (infosOf cs), i.hash = none → i.writes = [] :=
      fun i hi => infosOf_none_writes cs i (mem_sortEntries i (infosOf cs) hi)
    simp only [infoOf] at h ⊢
    simp only [assembleDir] at h ⊢
    by_cases hp : (assemble (sortEntries (infosOf cs))).1 = []
    · rw [if_pos hp] at h ⊢
      exact assemble_none_writes _ hs hp
    · rw [if_neg hp] at h
      simp at h
/-- Entry information collected for a directory list: no hash means no
writes, for every member. -/
theorem infosOf_none_writes : ∀ l : FSList, ∀ i ∈ infosOf l, i.hash = none → i.writes = []
  | .nil, i, hi => by simp [infosOf] at hi
  | .cons e r, i, hi => by
    rcases List.mem_cons.mp hi with h1 | h2
    · intro hn
      rw [h1]
      exact infoOf_none_writes e (h1 ▸ hn)
    · exact infosOf_none_writes r i h2
end

mutual
/-- A recursively empty directory is recorded with no hash and no writes. -/
theorem infoOf_empty : ∀ e : FSEntry, e.emptyRec = true →
    (infoOf e).hash = none ∧ (infoOf e).writes = []
  | .file n x c, h => by simp [FSEntry.emptyRec] at h
  | .dir n cs, h => by
    have he : cs.allEmpty = true := by simpa [FSEntry.emptyRec] using h
    have hs : ∀ i ∈ sortEntries (infosOf cs), i.hash = none ∧ i.writes = [] :=
      fun i hi => infosOf_empty cs he i (mem_sortEntries i (infosOf cs) hi)
    have ha : assemble (sortEntries (infosOf cs)) = ([], []) := assemble_trivial _ hs
    simp only [infoOf, assembleDir, ha]
    simp
/-- Members of the collected information of an all-empty directory list
carry no hash and no writes. -/
theorem infosOf_empty : ∀ l : FSList, l.allEmpty = true →
    ∀ i ∈ infosOf l, i.hash = none ∧ i.writes = []
  | .nil, _, i, hi => by simp [infosOf] at hi
  | .cons e r, h, i, hi => by
    have hh := h
    simp only [FSList.allEmpty, Bool.and_eq_true] at hh
    rcases List.mem_cons.mp hi with h1 | h2
    · rw [h1]
      exact infoOf_empty e hh.1
    · exact infosOf_empty r hh.2 i h2
end

/-- When write_tree_for yields no hash it persisted nothing. -/
theorem writeTreeFor_none_writes (cs : FSList) (h : (writeTreeFor cs).1 = none) :
    (writeTreeFor cs).2 = [] := by
  have hs : ∀ i ∈ sortEntries (infosOf cs), i.hash = none → i.writes = [] :=
    fun i hi => infosOf_none_writes cs i (mem_sortEntries i (infosOf cs) hi)
  rw [writeTreeFor] at h ⊢
  simp only [assembleDir] at h ⊢
  by_cases hp : (assemble (sortEntries (infosOf cs))).1 = []
  · rw [if_pos hp] at h ⊢
    exact assemble_none_writes _ hs hp
  · rw [if_neg hp] at h
    simp at h

/-- Prepending a recursively empty directory leaves write_tree_for
unchanged: the entry is absent from the payload and contributes no
writes. -/
theorem writeTreeFor_skip_empty (d : FSEntry) (cs : FSList) (h : d.emptyRec = true) :
    writeTreeFor (.cons d cs) = writeTreeFor cs := by
  obtain ⟨h1, h2⟩ := infoOf_empty d h
  rw [writeTreeFor, writeTreeFor]
  have hcons : infosOf (.cons d cs) = infoOf d :: infosOf cs := rfl
  rw [hcons]
  exact assembleDir_cons_trivial (infoOf d) h1 h2 (infosOf cs)

/-- A directory all of whose entries are recursively empty directories
snapshots to none. -/
theorem writeTreeFor_allEmpty : ∀ cs : FSList, cs.allEmpty = true →
    (writeTreeFor cs).1 = none
  | .nil, _ => by decide
  | .cons d r, h => by
    have hh := h
    simp only [FSList.allEmpty, Bool.and_eq_true] at hh
    rw [writeTreeFor_skip_empty d r hh.1]
    exact writeTreeFor_allEmpty r hh.2

/-- Claim C8: a snapshot that yields no entries returns None and persists
no object; prepending a recursively empty subdirectory changes neither the
parent payload nor the persisted objects (the subdirectory is omitted
entirely); hence a directory containing only empty subdirectories
snapshots to None. -/
theorem emptySubtree_elision :
    (∀ cs : FSList, (writeTreeFor cs).1 = none → (writeTreeFor cs).2 = [])
      ∧ (∀ (d : FSEntry) (cs : FSList), d.emptyRec = true →
          writeTreeFor (.cons d cs) = writeTreeFor cs)
      ∧ (∀ cs : FSList, cs.allEmpty = true → (writeTreeFor cs).1 = none) :=
  ⟨writeTreeFor_none_writes, writeTreeFor_skip_empty, writeTreeFor_allEmpty⟩

/-- Witness for C8 at a directory holding one empty subdirectory. -/
theorem emptySubtree_elision_witness :
    (FSList.cons (FSEntry.dir (strBytes "sub") .nil) .nil).allEmpty = true
      ∧ (writeTreeFor (FSList.cons (FSEntry.dir (strBytes "sub") .nil) .nil)).1 = none :=
  ⟨by decide, emptySubtree_elision.2.2 _ (by decide)⟩

/-- A hex digit char is ASCII, so occupies one UTF-8 byte. -/
theorem utf8CharLen_hex (c : Char) (h : isHexChar c = true) : utf8CharLen c = 1 := by
  simp only [isHexChar, Bool.or_eq_true, Bool.and_eq_true, decide_eq_true_eq] at h
  rw [utf8CharLen, if_pos (by omega)]

/-- The UTF-8 byte length of a string of one-byte chars is its char count. -/
theorem sum_map_one (s : List Char) (h : ∀ c ∈ s, utf8CharLen c = 1) :
    (s.map utf8CharLen).sum = s.length := by
  induction s with
  | nil => rfl
  | cons c t ih =>
    have hc := h c (List.mem_cons_self c t)
    have ht : ∀ x ∈ t, utf8CharLen x = 1 := fun x hx => h x (List.mem_cons_of_mem c hx)
    simp [hc, ih ht]
    omega

/-- Claim C10: validate_object_hash accepts a string exactly when it
consists of exactly 40 ASCII hexadecimal digit characters (uppercase or
lowercase); this parser runs on the object-hash arguments of cat-file,
ls-tree and commit-tree before any object-store access. -/
theorem validateObjectHash_iff (s : List Char) :
    validateObjectHash s = true ↔ (s.length = 40 ∧ ∀ c ∈ s, isHexChar c = true) := by
  constructor
  · intro h
    simp only [validateObjectHash, Bool.and_eq_true, decide_eq_true_eq,
      List.all_eq_true] at h
    obtain ⟨hsum, hall⟩ := h
    have hlen := sum_map_one s (fun c hc => utf8CharLen_hex c (hall c hc))
    exact ⟨by omega, hall⟩
  · rintro ⟨h40, hhex⟩
    have hlen := sum_map_one s (fun c hc => utf8CharLen_hex c (hhex c hc))
    simp only [validateObjectHash, Bool.and_eq_true, decide_eq_true_eq,
      List.all_eq_true]
    exact ⟨by omega, hhex⟩

/-- Witness for C10 at a concrete 40-character hex string. -/
theorem validateObjectHash_iff_witness :
    validateObjectHash ("ce013625030ba8dba906f756967f9e9ca394464a".data) = true :=
  (validateObjectHash_iff _).mpr (by decide)
